import Mathlib

/-!
Verification of the tile-catalogue server (src/server/server.js).

The file shallowly embeds the data model and the store operations of the
server: the slug normalizer, the upload payload construction and upsert,
the design sorting of GET /api/designs, the reorder endpoint and the
delete endpoint.  Strings are Lean strings (lists of characters); the
character-level JS operations (toUpperCase, trim, the slug regexes) are
modelled on code points, which is exact for the ASCII inputs these
routes manipulate.  Millisecond timestamps are integers.
-/

set_option maxHeartbeats 1000000

/-- Code point of a character. -/
def cp (c : Char) : Nat := c.toNat

/-- The character class of the slug regex on server.js line 45:
a character matching the class A to Z, 0 to 9 or the underscore. -/
def goodChar (c : Char) : Bool :=
  (65 ≤ cp c && cp c ≤ 90) || (48 ≤ cp c && cp c ≤ 57) || cp c == 95

/-- Whitespace removed by JS String.prototype.trim (code points 9 to 13 and 32). -/
def jsWs (c : Char) : Bool :=
  cp c == 32 || cp c == 9 || cp c == 10 || cp c == 13 || cp c == 12 || cp c == 11

/-- JS String.prototype.toUpperCase, one character at a time (ASCII model):
a lowercase letter is shifted to the uppercase range, all else is kept. -/
def jsUpper (c : Char) : Char :=
  if 97 ≤ cp c && cp c ≤ 122 then Char.ofNat (cp c - 32) else c

/-- Leading-whitespace half of String.prototype.trim. -/
def trimLeft (l : List Char) : List Char := l.dropWhile jsWs

/-- Trailing-whitespace half of String.prototype.trim. -/
def trimRight (l : List Char) : List Char := (l.reverse.dropWhile jsWs).reverse

/-- JS String.prototype.trim. -/
def jsTrim (l : List Char) : List Char := trimRight (trimLeft l)

/-- The replacement of every maximal run of characters outside the class
by a single underscore (the first regex on server.js line 45).  The
Boolean argument records whether the previous character belonged to such
a run, so that a continuing run emits nothing. -/
def collapseRuns : Bool → List Char → List Char
  | _, [] => []
  | prevBad, c :: t =>
    if goodChar c then c :: collapseRuns false t
    else if prevBad then collapseRuns true t
    else '_' :: collapseRuns true t

/-- Whether a run of characters outside the class is still open after
scanning a list starting from a given flag: the last character decides,
the initial flag when the list is empty. -/
def runFlag (b : Bool) (l : List Char) : Bool :=
  match l.getLast? with
  | some c => !goodChar c
  | none => b

/-- Removal of the leading underscore run (second regex on server.js line 45). -/
def stripLeadUnd (l : List Char) : List Char := l.dropWhile (fun c => c == '_')

/-- Removal of the trailing underscore run (second regex on server.js line 45). -/
def stripTrailUnd : List Char → List Char
  | [] => []
  | c :: t =>
    let r := stripTrailUnd t
    if r.isEmpty && c == '_' then [] else c :: r

/-- The slug normalizer of server.js lines 44 and 45: trim, uppercase,
collapse runs of characters outside the class to one underscore, and
strip leading and trailing underscores. -/
def slugChars (l : List Char) : List Char :=
  stripTrailUnd (stripLeadUnd (collapseRuns false ((jsTrim l).map jsUpper)))

/-- The slug normalizer on strings. -/
def slug (s : String) : String := String.mk (slugChars s.data)

/-! ### Filenames and extensions -/

/-- JS String.prototype.toLowerCase, one character at a time (ASCII model). -/
def jsLower (c : Char) : Char :=
  if 65 ≤ cp c && cp c ≤ 90 then Char.ofNat (cp c + 32) else c

/-- The part of a path after the last slash (Node path.basename). -/
def basenameChars (l : List Char) : List Char :=
  (l.reverse.takeWhile (fun c => c != '/')).reverse

/-- Node path.extname: the suffix of the basename from its last dot, the
empty string when the basename has no dot after its first character. -/
def extnameChars (l : List Char) : List Char :=
  match basenameChars l with
  | [] => []
  | _ :: rest =>
    if rest.contains '.' then
      '.' :: (rest.reverse.takeWhile (fun c => c != '.')).reverse
    else []

/-- path.extname(name).toLowerCase(), dot included, as used by the multer
filename callbacks (server.js line 106). -/
def extLower (name : String) : String :=
  String.mk ((extnameChars name.data).map jsLower)

/-- Removal of the first dot, as done by .replace applied to an extension
(the extension's only dot is its leading one). -/
def dropDot : List Char → List Char
  | '.' :: r => r
  | l => l

/-- Allowed image extensions (server.js lines 181, 189, 209). -/
def imageExts : List String := ["jpg", "jpeg", "png", "webp"]

/-- Allowed video extensions (server.js line 200). -/
def videoExts : List String := ["mp4"]

/-- safeExt of server.js lines 47 to 50: the lowercased extension without
its dot when it is in the allow list, and none otherwise. -/
def safeExt (name : String) (allowed : List String) : Option String :=
  let ext := String.mk (dropDot ((extnameChars name.data).map jsLower))
  if allowed.contains ext then some ext else none

/-! ### Data model -/

/-- A value of the themeData mapping: one asset path or an array of them. -/
inductive TVal where
  | s (v : String)
  | arr (vs : List String)
deriving DecidableEq

/-- One design record of the catalogue document.  A JS object field that a
given record may lack is an Option; none is an absent field. -/
structure Design where
  id : String
  theme : String := "default"
  label : String := ""
  finish : String := ""
  faces : Int := 0
  main : Option String := none
  variants : Option (List String) := none
  video : Option String := none
  preview : Option String := none
  sizeText : Option String := none
  themeData : Option (List (String × TVal)) := none
  position : Option Int := none
  createdAt : Option Int := none
  updatedAt : Option Int := none
deriving DecidableEq

/-- The catalogue document stored in catalogue.json. -/
structure Catalogue where
  brandLogo : Option String := none
  sizeIcon : Option String := none
  designs : List Design := []
deriving DecidableEq

/-- JS object-spread field resolution: the left operand models the later
spread, whose field wins when present. -/
def jsOr {α : Type} (a b : Option α) : Option α :=
  match a with
  | some x => some x
  | none => b

/-- Property lookup in a themeData object (association list with the
insertion order of the JS object; keys are unique by construction). -/
def lookupTd (td : List (String × TVal)) (k : String) : Option TVal :=
  (td.find? (fun p => p.1 == k)).map (fun p => p.2)

/-- JS property assignment obj[k] = v: overwrite the existing key in
place, else append the new key. -/
def setKey : List (String × TVal) → String → TVal → List (String × TVal)
  | [], k, v => [(k, v)]
  | p :: t, k, v => if p.1 == k then (k, v) :: t else p :: setKey t k v

/-- The JS object spread of two objects: start from the first
and assign every property of the second in order. -/
def objAssign (a b : List (String × TVal)) : List (String × TVal) :=
  b.foldl (fun acc p => setKey acc p.1 p.2) a

/-- The keys of a themeData object, in order. -/
def tdKeys (td : List (String × TVal)) : List String := td.map (fun p => p.1)

/-- Whether a request outcome is a success. -/
def exceptOk {e a : Type} : Except e a → Bool
  | Except.ok _ => true
  | Except.error _ => false

/-! ### Sorting of GET /api/designs (server.js lines 121 to 135) -/

/-- The left operand of the position comparison: a.position ?? 1e12. -/
def posKey (d : Design) : Int := d.position.getD 1000000000000

/-- The tiebreak key: a.createdAt || 0. -/
def caKey (d : Design) : Int := d.createdAt.getD 0

/-- The total preorder induced by the sort comparator of lines 125 to 129:
ascending sentinel-filled position, tie-broken by ascending createdAt. -/
def designLE (a b : Design) : Prop :=
  posKey a < posKey b ∨ (posKey a = posKey b ∧ caKey a ≤ caKey b)

instance : DecidableRel designLE := fun a b => by
  unfold designLE; infer_instance

instance : IsTotal Design designLE :=
  ⟨fun a b => by unfold designLE; omega⟩

instance : IsTrans Design designLE :=
  ⟨fun a b c hab hbc => by unfold designLE at hab hbc ⊢; omega⟩

/-- The in-place data.designs.sort(...) of the GET handler.  JS sort is
stable (ES2019), so it computes the stable insertion sort under the
comparator's preorder. -/
def sortDesigns (l : List Design) : List Design := List.insertionSort designLE l

/-- GET /api/designs: the returned (and only) mutation of the document. -/
def apiGetDesigns (cat : Catalogue) : Catalogue :=
  { cat with designs := sortDesigns cat.designs }

/-! ### Upload upsert (server.js lines 138 to 289) -/

/-- data.brandLogo = data.brandLogo || default (an empty string is falsy). -/
def orDefaultStr (v : Option String) (d : String) : String :=
  match v with
  | some s => if s == "" then d else s
  | none => d

/-- Branding seeding of lines 168 and 169. -/
def seedBranding (cat : Catalogue) : Catalogue :=
  { cat with
    brandLogo := some (orDefaultStr cat.brandLogo ("../AXOLI/DATA/logo.svg")),
    sizeIcon := some (orDefaultStr cat.sizeIcon ("../AXOLI/DATA/size.svg")) }

/-- findIndex by id followed by replace-at-index or push (lines 218, 234,
235): the first record matching p is rewritten by f, else newRec is
appended at the end. -/
def upsertList (p : Design → Bool) (f : Design → Design) (newRec : Design) :
    List Design → List Design
  | [] => [newRec]
  | d :: t => if p d then f d :: t else d :: upsertList p f newRec t

/-- The relative asset paths assembled by the default-theme branch. -/
structure DefaultRels where
  mainRel : Option String := none
  variantRels : List String := []
  videoRel : Option String := none
  previewRel : Option String := none
deriving DecidableEq

/-- The spread of the default-theme payload (lines 219 to 232) over an
existing record: always-present fields replace, optional fields replace
only when present, createdAt is not in the payload when the record
exists, position and themeData are never in it. -/
def mergeDefault (id label finish : String) (faces now : Int) (rels : DefaultRels)
    (sizeText : Option String) (old : Design) : Design :=
  { old with
    id := id, theme := "default", label := label, finish := finish, faces := faces,
    updatedAt := some now,
    main := jsOr rels.mainRel old.main,
    variants := if rels.variantRels.isEmpty then old.variants else some rels.variantRels,
    video := jsOr rels.videoRel old.video,
    preview := jsOr rels.previewRel old.preview,
    sizeText := jsOr sizeText old.sizeText }

/-- The default-theme payload pushed as a fresh record (idx < 0). -/
def newDefault (id label finish : String) (faces now : Int) (rels : DefaultRels)
    (sizeText : Option String) : Design :=
  { id := id, theme := "default", label := label, finish := finish, faces := faces,
    updatedAt := some now, createdAt := some now,
    main := rels.mainRel,
    variants := if rels.variantRels.isEmpty then none else some rels.variantRels,
    video := rels.videoRel, preview := rels.previewRel, sizeText := sizeText }

/-- The whole default-theme store mutation of POST /api/upload. -/
def upsertDefault (cat : Catalogue) (id label finish : String) (faces now : Int)
    (rels : DefaultRels) (sizeText : Option String) : Catalogue :=
  let cat1 := seedBranding cat
  let ds := upsertList (fun d => d.id == id)
    (mergeDefault id label finish faces now rels sizeText)
    (newDefault id label finish faces now rels sizeText) cat1.designs
  { cat1 with designs := ds }

/-- The flexible-theme payload spread over an existing record (lines 269
to 280): themeData is itself the spread of the old themeData under the
newly collected one. -/
def mergeFlex (id theme label finish : String) (faces now : Int)
    (newTd : List (String × TVal)) (old : Design) : Design :=
  { old with
    id := id, theme := theme, label := label, finish := finish, faces := faces,
    updatedAt := some now,
    themeData := some (objAssign (old.themeData.getD []) newTd) }

/-- The flexible-theme payload pushed as a fresh record. -/
def newFlex (id theme label finish : String) (faces now : Int)
    (newTd : List (String × TVal)) : Design :=
  { id := id, theme := theme, label := label, finish := finish, faces := faces,
    updatedAt := some now, createdAt := some now,
    themeData := some (objAssign [] newTd) }

/-- The whole flexible-theme store mutation of POST /api/upload. -/
def flexUpsert (cat : Catalogue) (id theme label finish : String) (faces now : Int)
    (newTd : List (String × TVal)) : Catalogue :=
  let cat1 := seedBranding cat
  let ds := upsertList (fun d => d.id == id)
    (mergeFlex id theme label finish faces now newTd)
    (newFlex id theme label finish faces now newTd) cat1.designs
  { cat1 with designs := ds }

/-! ### Uploaded files -/

/-- One uploaded file: its multipart field name, its original client
filename, and the Date.now() value observed when multer named it. -/
structure UpFile where
  fieldname : String
  originalname : String
  ts : Int := 0
deriving DecidableEq

/-- The multer disk filename for a non-default theme (line 115). -/
def flexStoredName (f : UpFile) : String :=
  f.fieldname ++ "_" ++ toString f.ts ++ extLower f.originalname

/-- The relative asset path recorded in themeData for one flexible-theme
file (lines 261 and 263): basename(f.path) is the multer filename. -/
def assetPath (id : String) (f : UpFile) : String :=
  "../AXOLI/DATA/ASSETS/" ++ id ++ "/" ++ flexStoredName f

/-- The field-name cleanup of lines 254 to 257 on character lists: strip
a leading files[, then a trailing ][], then a trailing ]. -/
def cleanFieldChars (l : List Char) : List Char :=
  let s1 := if List.isPrefixOf ("files[".data) l then l.drop 6 else l
  let s2 := if List.isSuffixOf ("][]".data) s1 then s1.take (s1.length - 3) else s1
  if List.isSuffixOf ("]".data) s2 then s2.take (s2.length - 1) else s2

/-- The field-name cleanup of lines 254 to 257: strip a leading files[,
then a trailing ][], then a trailing ]. -/
def cleanField (f : String) : String := String.mk (cleanFieldChars f.data)

/-- The field names the flexible-theme loop skips (line 250). -/
def reservedFields : List String := ["main", "variants", "variants[]", "video", "preview"]

/-- The themeData value for one field: a single path when the field got
exactly one file, else the array of paths (lines 259 to 264). -/
def mkTVal (id : String) (arr : List UpFile) : TVal :=
  match arr with
  | [f] => TVal.s (assetPath id f)
  | fs => TVal.arr (fs.map (assetPath id))

/-- One iteration of the flexible-theme file loop (lines 249 to 265). -/
def flexFileStep (id : String) (td : List (String × TVal)) (field : String)
    (arr : List UpFile) : List (String × TVal) :=
  if reservedFields.contains field then td
  else if arr.isEmpty then td
  else setKey td (cleanField field) (mkTVal id arr)

/-- The whole flexible-theme file loop over the grouped files, in the
first-appearance order of the field names, starting from the themeData
already collected from the body's data[...] fields. -/
def flexThemeData (id : String) (grouped : List (String × List UpFile))
    (td0 : List (String × TVal)) : List (String × TVal) :=
  grouped.foldl (fun td p => flexFileStep id td p.1 p.2) td0

/-! ### Default-theme file handling (server.js lines 175 to 214) -/

/-- The variant loop of lines 186 to 196: the counter starts at its
argument, a file with a disallowed extension is skipped without
incrementing it, an accepted file is renamed to id_Rcounter.ext. -/
def processVariants (id : String) : Nat → List String → List String
  | _, [] => []
  | counter, name :: rest =>
    match safeExt name imageExts with
    | none => processVariants id counter rest
    | some ext => (id ++ "_R" ++ toString counter ++ "." ++ ext) :: processVariants id (counter + 1) rest

/-- The default-theme files of one request, by field: the first main
file, the variant files in upload order, the first video file, the first
preview file (lines 179, 187, 198, 207). -/
structure DefaultFileReq where
  main : Option String := none
  variants : List String := []
  video : Option String := none
  preview : Option String := none
deriving DecidableEq

/-- Lines 180 to 184: a present main file with a disallowed extension
rejects the request; otherwise its stored path uses the multer name
id_R1 with the raw lowercased extension. -/
def mainStep (id : String) (m : Option String) : Except String (Option String) :=
  match m with
  | none => Except.ok none
  | some name =>
    match safeExt name imageExts with
    | none => Except.error ("Main: invalid image type")
    | some _ => Except.ok (some ("../AXOLI/DATA/TILES/" ++ id ++ "/" ++ id ++ "_R1" ++ extLower name))

/-- Lines 198 to 205: only mp4 is allowed for video. -/
def videoStep (id : String) (v : Option String) : Except String (Option String) :=
  match v with
  | none => Except.ok none
  | some name =>
    match safeExt name videoExts with
    | none => Except.error ("Video: only mp4 allowed")
    | some _ => Except.ok (some ("../AXOLI/DATA/VIDEO/" ++ id ++ ".mp4"))

/-- Lines 207 to 214: the preview path uses the validated extension. -/
def previewStep (id : String) (pv : Option String) : Except String (Option String) :=
  match pv with
  | none => Except.ok none
  | some name =>
    match safeExt name imageExts with
    | none => Except.error ("Preview: invalid image type")
    | some ext => Except.ok (some ("../AXOLI/DATA/PREVIEW/" ++ id ++ "." ++ ext))

/-- The default-theme file stage: every check of lines 175 to 214, with
the relative paths the handler records in the payload. -/
def defaultFiles (id : String) (req : DefaultFileReq) : Except String DefaultRels :=
  match mainStep id req.main with
  | Except.error e => Except.error e
  | Except.ok mainRel =>
    match videoStep id req.video with
    | Except.error e => Except.error e
    | Except.ok videoRel =>
      match previewStep id req.preview with
      | Except.error e => Except.error e
      | Except.ok previewRel =>
        Except.ok { mainRel := mainRel,
                    variantRels := (processVariants id 2 req.variants).map
                      (fun n => "../AXOLI/DATA/TILES/" ++ id ++ "/" ++ n),
                    videoRel := videoRel, previewRel := previewRel }

/-! ### PUT /api/designs/order (server.js lines 296 to 336) -/

/-- The byId map of line 304: a JS Map keeps the last entry for a key. -/
def byIdGet (ds : List Design) (id : String) : Option Design :=
  ds.reverse.find? (fun d => d.id == id)

/-- The theme-scope substitution of line 315: walk the current ids; an id
in the supplied set takes the iterator's next value (undefined, i.e.
none, when the iterator is exhausted), other ids stay. -/
def walkIds (isMem : String → Bool) : List String → List String → List (Option String)
  | [], _ => []
  | d :: ds, rem =>
    if isMem d then rem.head? :: walkIds isMem ds (rem.drop 1)
    else some d :: walkIds isMem ds rem

/-- The last index at which x occurs in newIds: the forEach of lines 324
to 327 assigns positions in order, so the last assignment wins. -/
def lastIdx? : List (Option String) → String → Option Nat
  | [], _ => none
  | o :: t, x =>
    match lastIdx? t x with
    | some i => some (i + 1)
    | none => if o == some x then some 0 else none

/-- Lines 324 to 329: each resolved id's record receives position
last-index-plus-one, and data.designs becomes the byId lookups of the
new id sequence; an unresolved slot is JS undefined, modelled none. -/
def applyOrder (ds : List Design) (newIds : List (Option String)) : List (Option Design) :=
  newIds.map (fun oid =>
    match oid with
    | none => none
    | some id =>
      match byIdGet ds id with
      | none => none
      | some d =>
        match lastIdx? newIds id with
        | some i => some { d with position := some (Int.ofNat i + 1) }
        | none => some d)

/-- PUT /api/designs/order.  order = none models a body whose order value
is not an array (every such value behaves alike); an error is a 400
response, and the handler then returns before writeJson, so the stored
document is unchanged exactly in the error cases.  On success the value
is the new data.designs, which is both stored and returned. -/
def reorderOp (cat : Catalogue) (theme : Option String) (order : Option (List String)) :
    Except String (List (Option Design)) :=
  match order with
  | none => Except.error ("Provide \x27order\x27 as a non-empty array of IDs.")
  | some ord =>
    if ord.isEmpty then Except.error ("Provide \x27order\x27 as a non-empty array of IDs.")
    else
      let current := sortDesigns cat.designs
      let isThemeScope : Bool :=
        match theme with
        | none => false
        | some t => !(t == "") && !(t == "all")
      if isThemeScope then
        let newIds := walkIds (fun s => ord.contains s) (current.map (fun d => d.id)) ord
        Except.ok (applyOrder cat.designs newIds)
      else
        let allIds := (current.map (fun d => d.id)).dedup
        if ord.length != allIds.length || ord.any (fun i => !(allIds.contains i)) then
          Except.error ("Global reorder must include all existing design IDs.")
        else
          Except.ok (applyOrder cat.designs (ord.map some))

/-! ### DELETE /api/designs/:id (server.js lines 339 to 374) -/

/-- DELETE /api/designs/:id: the path parameter is normalized with the
same slug used at upload time; an empty slug is a 400 before any store
access, else the record with that id is filtered out and removed reports
whether one existed. -/
def deleteOp (cat : Catalogue) (rawId : String) : Except String (Catalogue × Bool) :=
  let id := slug rawId
  if id == "" then Except.error ("Missing id")
  else
    let designs := cat.designs
    let existed := designs.any (fun d => d.id == id)
    Except.ok ({ cat with designs := designs.filter (fun d => !(d.id == id)) }, existed)

/-! ### Spec-side definitions (for refinement statements) -/

/-- Modelled from the spec: the accepted variant extensions, numbered
consecutively from the starting counter with no gap, one name per
accepted file in upload order. -/
def variantNamesSpec (id : String) : Nat → List String → List String
  | _, [] => []
  | c, e :: rest => (id ++ "_R" ++ toString c ++ "." ++ e) :: variantNamesSpec id (c + 1) rest

/-- Modelled from the spec: walking the current id order, each id that is
a member of the supplied set is replaced by the next unconsumed id of
the supplied sequence, other ids keep their slots.  (The exhausted case
cannot arise for a duplicate-free subset sequence.) -/
def specWalk (ordFull : List String) : List String → List String → List String
  | [], _ => []
  | d :: ds, rem =>
    if ordFull.contains d then
      match rem with
      | r :: rs => r :: specWalk ordFull ds rs
      | [] => d :: specWalk ordFull ds []
    else d :: specWalk ordFull ds rem

/-! ### Concrete documents and files used for witnesses and counterexamples -/

def dX : Design := { id := "X", position := some 1, createdAt := some 10, updatedAt := some 10 }

def dY : Design := { id := "Y", position := some 2, createdAt := some 20, updatedAt := some 20 }

def catXY : Catalogue :=
  { brandLogo := some ("../AXOLI/DATA/logo.svg"), sizeIcon := some ("../AXOLI/DATA/size.svg"),
    designs := [dX, dY] }

def dA : Design := { id := "A", position := some 1, createdAt := some 1, updatedAt := some 1 }

def dB : Design := { id := "B", position := some 2, createdAt := some 2, updatedAt := some 2 }

def catAB : Catalogue :=
  { brandLogo := some ("../AXOLI/DATA/logo.svg"), sizeIcon := some ("../AXOLI/DATA/size.svg"),
    designs := [dA, dB] }

def dW1 : Design := { id := "A", position := some 1, createdAt := some 1, updatedAt := some 1 }

def dW2 : Design := { id := "B", position := some 2, createdAt := some 2, updatedAt := some 2 }

def dW3 : Design := { id := "C", position := some 3, createdAt := some 3, updatedAt := some 3 }

def dW4 : Design := { id := "D", position := some 4, createdAt := some 4, updatedAt := some 4 }

def catW : Catalogue :=
  { brandLogo := some ("../AXOLI/DATA/logo.svg"), sizeIcon := some ("../AXOLI/DATA/size.svg"),
    designs := [dW1, dW2, dW3, dW4] }

def d7X : Design := { id := "X", position := some 1000000000000, createdAt := some 5, updatedAt := some 5 }

def d7Y : Design := { id := "Y", position := none, createdAt := some 3, updatedAt := some 3 }

def cat7 : Catalogue :=
  { brandLogo := some ("../AXOLI/DATA/logo.svg"), sizeIcon := some ("../AXOLI/DATA/size.svg"),
    designs := [d7X, d7Y] }

def fMain : UpFile := { fieldname := "main", originalname := "m.png", ts := 1 }

def fB1 : UpFile := { fieldname := "badge", originalname := "b1.png", ts := 2 }

def fB2 : UpFile := { fieldname := "files[badge]", originalname := "b2.png", ts := 3 }

def catBM : Catalogue :=
  { brandLogo := some ("../AXOLI/DATA/logo.svg"), sizeIcon := some ("../AXOLI/DATA/size.svg"),
    designs := [{ id := "BLUE_MARBLE", createdAt := some 7, updatedAt := some 7 }] }

/-! ### Character facts -/

theorem goodChar_underscore : goodChar '_' = true := by decide

theorem jsUpper_of_good {c : Char} (h : goodChar c = true) : jsUpper c = c := by
  unfold goodChar at h
  unfold jsUpper
  rw [if_neg]
  simp only [Bool.or_eq_true, Bool.and_eq_true, decide_eq_true_eq, beq_iff_eq] at h
  simp only [Bool.and_eq_true, decide_eq_true_eq, not_and]
  omega

theorem not_ws_of_good {c : Char} (h : goodChar c = true) : jsWs c = false := by
  unfold goodChar at h
  unfold jsWs
  simp only [Bool.or_eq_true, Bool.and_eq_true, decide_eq_true_eq, beq_iff_eq] at h ⊢
  simp only [Bool.or_eq_false_iff, beq_eq_false_iff_ne, Ne]
  omega

theorem jsUpper_of_ws {c : Char} (h : jsWs c = true) : jsUpper c = c := by
  unfold jsWs at h
  unfold jsUpper
  rw [if_neg]
  simp only [Bool.or_eq_true, beq_iff_eq] at h
  simp only [Bool.and_eq_true, decide_eq_true_eq, not_and]
  omega

theorem not_good_of_ws {c : Char} (h : jsWs c = true) : goodChar c = false := by
  unfold jsWs at h
  unfold goodChar
  simp only [Bool.or_eq_true, beq_iff_eq] at h
  simp only [Bool.or_eq_false_iff, Bool.and_eq_false_iff, beq_eq_false_iff_ne, Ne,
    decide_eq_false_iff_not, not_le]
  omega

/-! ### Collapse and strip lemmas -/

theorem mem_collapseRuns {c : Char} :
    ∀ {b : Bool} {l : List Char}, c ∈ collapseRuns b l → goodChar c = true := by
  intro b l
  induction l generalizing b with
  | nil => intro h; simp [collapseRuns] at h
  | cons a t ih =>
    intro h
    by_cases hg : goodChar a = true
    · rw [collapseRuns, if_pos hg] at h
      rcases List.mem_cons.mp h with h1 | h2
      · exact h1 ▸ hg
      · exact ih h2
    · rw [collapseRuns, if_neg hg] at h
      cases b with
      | true => exact ih (by simpa using h)
      | false =>
        simp only [Bool.false_eq_true, if_false] at h
        rcases List.mem_cons.mp h with h1 | h2
        · exact h1 ▸ goodChar_underscore
        · exact ih h2

theorem collapseRuns_of_good {l : List Char} (h : ∀ c ∈ l, goodChar c = true) :
    ∀ b, collapseRuns b l = l := by
  induction l with
  | nil => intro b; rfl
  | cons a t ih =>
    intro b
    have ha : goodChar a = true := h a (List.mem_cons_self a t)
    rw [collapseRuns, if_pos ha, ih (fun c hc => h c (List.mem_cons_of_mem a hc))]

theorem mem_stripTrailUnd {c : Char} :
    ∀ {l : List Char}, c ∈ stripTrailUnd l → c ∈ l := by
  intro l
  induction l with
  | nil => intro h; simp [stripTrailUnd] at h
  | cons a t ih =>
    intro h
    rw [stripTrailUnd] at h
    by_cases hc : (stripTrailUnd t).isEmpty && a == '_'
    · rw [if_pos hc] at h; simp at h
    · rw [if_neg hc] at h
      rcases List.mem_cons.mp h with h1 | h2
      · exact h1 ▸ List.mem_cons_self a t
      · exact List.mem_cons_of_mem a (ih h2)

theorem mem_stripLeadUnd {c : Char} {l : List Char} (h : c ∈ stripLeadUnd l) : c ∈ l :=
  (List.dropWhile_sublist _).mem h

theorem stripLeadUnd_head {l : List Char} {c : Char}
    (h : (stripLeadUnd l).head? = some c) : (c == '_') = false := by
  induction l with
  | nil => simp [stripLeadUnd] at h
  | cons a t ih =>
    rw [stripLeadUnd, List.dropWhile_cons] at h
    by_cases ha : (a == '_') = true
    · rw [if_pos ha] at h; exact ih h
    · rw [if_neg ha] at h
      simp only [List.head?_cons, Option.some.injEq] at h
      subst h
      simpa using ha

theorem stripTrailUnd_getLast {l : List Char} {c : Char}
    (h : (stripTrailUnd l).getLast? = some c) : (c == '_') = false := by
  induction l with
  | nil => simp [stripTrailUnd] at h
  | cons a t ih =>
    rw [stripTrailUnd] at h
    by_cases hc : (stripTrailUnd t).isEmpty && a == '_'
    · rw [if_pos hc] at h; simp at h
    · rw [if_neg hc] at h
      rcases hr : stripTrailUnd t with _ | ⟨b, r⟩
      · rw [hr] at h
        simp only [List.getLast?_singleton, Option.some.injEq] at h
        subst h
        rw [hr] at hc
        simpa using hc
      · rw [hr] at h
        rw [List.getLast?_cons_cons] at h
        exact ih (by rw [hr]; exact h)

theorem stripTrailUnd_of_getLast {l : List Char}
    (h : ∀ c, l.getLast? = some c → (c == '_') = false) : stripTrailUnd l = l := by
  induction l with
  | nil => rfl
  | cons a t ih =>
    rcases ht : t with _ | ⟨b, r⟩
    · subst ht
      have ha : (a == '_') = false := h a (by simp)
      simp [stripTrailUnd, ha]
    · subst ht
      have hrec : stripTrailUnd (b :: r) = b :: r := by
        apply ih
        intro c hc
        apply h
        rw [List.getLast?_cons_cons]
        exact hc
      rw [stripTrailUnd, hrec]
      simp

theorem stripLeadUnd_of_head {l : List Char}
    (h : ∀ c, l.head? = some c → (c == '_') = false) : stripLeadUnd l = l := by
  cases l with
  | nil => rfl
  | cons a t =>
    have := h a (by simp)
    rw [stripLeadUnd, List.dropWhile_cons, if_neg (by simp [this])]

theorem dropWhile_of_all_false {p : Char → Bool} {l : List Char}
    (h : ∀ c ∈ l, p c = false) : l.dropWhile p = l := by
  cases l with
  | nil => rfl
  | cons a t =>
    rw [List.dropWhile_cons, if_neg (by simp [h a (List.mem_cons_self a t)])]

theorem map_id_of_mem {α : Type} {f : α → α} :
    ∀ {l : List α}, (∀ c ∈ l, f c = c) → l.map f = l := by
  intro l
  induction l with
  | nil => intro h; rfl
  | cons a t ih =>
    intro h
    rw [List.map_cons, h a (List.mem_cons_self a t),
      ih (fun c hc => h c (List.mem_cons_of_mem a hc))]

theorem runFlag_cons (b : Bool) (c : Char) (t : List Char) :
    runFlag b (c :: t) = runFlag (!goodChar c) t := by
  cases t with
  | nil => rfl
  | cons d r =>
    unfold runFlag
    rw [List.getLast?_cons_cons]
    cases h : (d :: r).getLast? with
    | none =>
      rw [List.getLast?_eq_none_iff] at h
      simp at h
    | some c2 => simp [h]

theorem stripLeadUnd_collapseRuns_flag :
    ∀ (l : List Char) (b : Bool),
      stripLeadUnd (collapseRuns b l) = stripLeadUnd (collapseRuns true l) := by
  intro l
  induction l with
  | nil => intro b; rfl
  | cons a t ih =>
    intro b
    by_cases hg : goodChar a = true
    · rw [collapseRuns, if_pos hg, collapseRuns, if_pos hg]
    · rw [collapseRuns, if_neg hg, collapseRuns, if_neg hg, if_pos rfl]
      cases b with
      | true => simp only [if_true]
      | false =>
        simp only [Bool.false_eq_true, if_false]
        rw [stripLeadUnd, List.dropWhile_cons, if_pos (by simp)]
        rfl

theorem stripLeadUnd_collapseRuns_cons_bad {a : Char} (ha : goodChar a = false)
    (t : List Char) (b : Bool) :
    stripLeadUnd (collapseRuns b (a :: t)) = stripLeadUnd (collapseRuns b t) := by
  rw [stripLeadUnd_collapseRuns_flag (a :: t) b, stripLeadUnd_collapseRuns_flag t b]
  rw [collapseRuns, if_neg (by simp [ha]), if_pos rfl]

theorem collapseRuns_append_bad {x : Char} (hx : goodChar x = false) :
    ∀ (l : List Char) (b : Bool),
      collapseRuns b (l ++ [x]) =
        collapseRuns b l ++ (if runFlag b l then [] else ['_']) := by
  intro l
  induction l with
  | nil =>
    intro b
    cases b with
    | true =>
      simp only [List.nil_append, collapseRuns, hx, Bool.false_eq_true, if_false, if_true]
      rfl
    | false =>
      simp only [List.nil_append, collapseRuns, hx, Bool.false_eq_true, if_false]
      rfl
  | cons a t ih =>
    intro b
    by_cases hg : goodChar a = true
    · rw [List.cons_append, collapseRuns, if_pos hg, ih false, collapseRuns, if_pos hg,
        runFlag_cons, hg]
      simp
    · have hg' : goodChar a = false := by simpa using hg
      rw [List.cons_append, collapseRuns, if_neg hg, collapseRuns, if_neg hg,
        runFlag_cons, hg']
      cases b with
      | true => simp only [if_true, Bool.not_false]; rw [ih true]
      | false =>
        simp only [Bool.false_eq_true, if_false, Bool.not_false]
        rw [ih true]
        simp

theorem stripTrailUnd_append_und :
    ∀ l : List Char, stripTrailUnd (l ++ ['_']) = stripTrailUnd l := by
  intro l
  induction l with
  | nil => rfl
  | cons a t ih =>
    rw [List.cons_append, stripTrailUnd, stripTrailUnd]
    simp only [ih]

theorem stripTrail_stripLead_append_und :
    ∀ m : List Char,
      stripTrailUnd (stripLeadUnd (m ++ ['_'])) = stripTrailUnd (stripLeadUnd m) := by
  intro m
  induction m with
  | nil => rfl
  | cons a t ih =>
    by_cases ha : (a == '_') = true
    · rw [List.cons_append, stripLeadUnd, List.dropWhile_cons, if_pos (by simp [ha]),
        stripLeadUnd, List.dropWhile_cons, if_pos (by simp [ha])]
      exact ih
    · rw [List.cons_append, stripLeadUnd, List.dropWhile_cons, if_neg (by simp at ha ⊢; exact ha),
        stripLeadUnd, List.dropWhile_cons, if_neg (by simp at ha ⊢; exact ha)]
      rw [show a :: (t ++ ['_']) = (a :: t) ++ ['_'] from rfl]
      exact stripTrailUnd_append_und (a :: t)

theorem core_cons_bad {a : Char} (ha : goodChar a = false) (t : List Char) :
    stripTrailUnd (stripLeadUnd (collapseRuns false (a :: t))) =
      stripTrailUnd (stripLeadUnd (collapseRuns false t)) :=
  congrArg stripTrailUnd (stripLeadUnd_collapseRuns_cons_bad ha t false)

theorem core_append_bad {x : Char} (hx : goodChar x = false) (l : List Char) :
    stripTrailUnd (stripLeadUnd (collapseRuns false (l ++ [x]))) =
      stripTrailUnd (stripLeadUnd (collapseRuns false l)) := by
  rw [collapseRuns_append_bad hx l false]
  by_cases h : runFlag false l = true
  · rw [if_pos h, List.append_nil]
  · rw [if_neg h]
    exact stripTrail_stripLead_append_und (collapseRuns false l)

theorem core_trimLeft :
    ∀ l : List Char,
      stripTrailUnd (stripLeadUnd (collapseRuns false ((trimLeft l).map jsUpper))) =
        stripTrailUnd (stripLeadUnd (collapseRuns false (l.map jsUpper))) := by
  intro l
  induction l with
  | nil => rfl
  | cons a t ih =>
    by_cases hw : jsWs a = true
    · rw [trimLeft, List.dropWhile_cons, if_pos (by simp [hw])]
      rw [List.map_cons, jsUpper_of_ws hw, core_cons_bad (not_good_of_ws hw)]
      exact ih
    · rw [trimLeft, List.dropWhile_cons, if_neg (by simp at hw ⊢; exact hw)]

theorem core_trimRight_aux :
    ∀ r : List Char,
      stripTrailUnd (stripLeadUnd (collapseRuns false (((r.dropWhile jsWs).reverse).map jsUpper))) =
        stripTrailUnd (stripLeadUnd (collapseRuns false ((r.reverse).map jsUpper))) := by
  intro r
  induction r with
  | nil => rfl
  | cons a t ih =>
    by_cases hw : jsWs a = true
    · rw [List.dropWhile_cons, if_pos (by simp [hw])]
      rw [List.reverse_cons, List.map_append, List.map_cons, List.map_nil,
        jsUpper_of_ws hw, core_append_bad (not_good_of_ws hw)]
      exact ih
    · rw [List.dropWhile_cons, if_neg (by simp at hw ⊢; exact hw)]

theorem core_trim (l : List Char) :
    stripTrailUnd (stripLeadUnd (collapseRuns false ((jsTrim l).map jsUpper))) =
      stripTrailUnd (stripLeadUnd (collapseRuns false (l.map jsUpper))) := by
  have h1 := core_trimRight_aux (trimLeft l).reverse
  rw [List.reverse_reverse] at h1
  have h2 : jsTrim l = ((trimLeft l).reverse.dropWhile jsWs).reverse := rfl
  rw [h2, h1]
  exact core_trimLeft l

theorem slugChars_mem {l : List Char} {c : Char} (h : c ∈ slugChars l) :
    goodChar c = true :=
  mem_collapseRuns (mem_stripLeadUnd (mem_stripTrailUnd h))

theorem stripTrailUnd_head? {m : List Char} {c : Char}
    (h : (stripTrailUnd m).head? = some c) : m.head? = some c := by
  cases m with
  | nil => simp [stripTrailUnd] at h
  | cons a t =>
    rw [stripTrailUnd] at h
    by_cases hc : (stripTrailUnd t).isEmpty && a == '_'
    · rw [if_pos hc] at h; simp at h
    · rw [if_neg hc] at h
      simp only [List.head?_cons, Option.some.injEq] at h
      simp [h]

theorem slugChars_head {l : List Char} {c : Char}
    (h : (slugChars l).head? = some c) : (c == '_') = false :=
  stripLeadUnd_head (stripTrailUnd_head? h)

theorem slugChars_getLast {l : List Char} {c : Char}
    (h : (slugChars l).getLast? = some c) : (c == '_') = false :=
  stripTrailUnd_getLast h

theorem slugChars_idem (l : List Char) : slugChars (slugChars l) = slugChars l := by
  have hgood : ∀ c ∈ slugChars l, goodChar c = true := fun c hc => slugChars_mem hc
  have htl : trimLeft (slugChars l) = slugChars l :=
    dropWhile_of_all_false (fun c hc => not_ws_of_good (hgood c hc))
  have htr : jsTrim (slugChars l) = slugChars l := by
    rw [jsTrim, htl, trimRight,
      dropWhile_of_all_false (fun c hc => not_ws_of_good (hgood c (List.mem_reverse.mp hc))),
      List.reverse_reverse]
  have hup : (slugChars l).map jsUpper = slugChars l :=
    map_id_of_mem (fun c hc => jsUpper_of_good (hgood c hc))
  have hcol : collapseRuns false (slugChars l) = slugChars l :=
    collapseRuns_of_good hgood false
  have hsl : stripLeadUnd (slugChars l) = slugChars l :=
    stripLeadUnd_of_head (fun c hc => slugChars_head hc)
  have hst : stripTrailUnd (slugChars l) = slugChars l :=
    stripTrailUnd_of_getLast (fun c hc => slugChars_getLast hc)
  show stripTrailUnd (stripLeadUnd (collapseRuns false ((jsTrim (slugChars l)).map jsUpper))) =
    slugChars l
  rw [htr, hup, hcol, hsl, hst]

/-- C5: the slug normalizer is idempotent; its output uses only characters
of the class A to Z, 0 to 9, underscore, with no leading or trailing
underscore; and it equals the uppercased input with every maximal run of
characters outside the class collapsed to one underscore and the edge
underscores stripped. -/
theorem c5_slug_normalizer (s : String) :
    slug (slug s) = slug s ∧
    (∀ c ∈ (slug s).data, goodChar c = true) ∧
    (slug s).data.head? ≠ some '_' ∧
    (slug s).data.getLast? ≠ some '_' ∧
    (slug s).data = stripTrailUnd (stripLeadUnd (collapseRuns false (s.data.map jsUpper))) := by
  refine ⟨?_, ?_, ?_, ?_, ?_⟩
  · show String.mk (slugChars (slugChars s.data)) = String.mk (slugChars s.data)
    rw [slugChars_idem]
  · intro c hc
    exact slugChars_mem hc
  · intro h
    have := slugChars_head (l := s.data) h
    simp at this
  · intro h
    have := slugChars_getLast (l := s.data) h
    simp at this
  · exact core_trim s.data

/-! ### C9, C10, C1, C2, C7, C6 -/

/-- C9: PUT /api/designs/order whose order value is not a non-empty array
is always a 400 error, and the handler returns before writeJson, so the
stored document is untouched; this includes an empty order array sent
against a catalogue with zero designs, although the empty sequence would
be the valid full permutation there. -/
theorem c9_order_guard (cat : Catalogue) (theme : Option String) :
    reorderOp cat theme none =
      Except.error ("Provide \x27order\x27 as a non-empty array of IDs.") ∧
    reorderOp cat theme (some []) =
      Except.error ("Provide \x27order\x27 as a non-empty array of IDs.") ∧
    reorderOp { designs := [] } theme (some []) =
      Except.error ("Provide \x27order\x27 as a non-empty array of IDs.") := by
  exact ⟨rfl, rfl, rfl⟩

/-- C10: DELETE /api/designs/:id normalizes the path parameter with the
same slug function used at upload time before matching: when the raw id
normalizes to a nonempty slug, exactly the records carrying that slug
are removed and removed reports whether one existed; when it normalizes
to the empty string the response is a 400 error and nothing is removed. -/
theorem c10_delete_slug (cat : Catalogue) (rawId : String) :
    (slug rawId = "" → deleteOp cat rawId = Except.error ("Missing id")) ∧
    (slug rawId ≠ "" →
      deleteOp cat rawId =
        Except.ok
          ({ cat with designs := cat.designs.filter (fun d => !(d.id == slug rawId)) },
            cat.designs.any (fun d => d.id == slug rawId))) := by
  constructor
  · intro h
    simp [deleteOp, h]
  · intro h
    simp only [deleteOp]
    rw [if_neg (by simpa using h)]

/-- C10 witness: deleting with the raw id " blue marble! " removes the
record whose id is the slug BLUE_MARBLE, and a raw id of punctuation
only is rejected with no mutation. -/
theorem c10_delete_slug_witness :
    deleteOp catBM (" blue marble! ") = Except.ok ({ catBM with designs := [] }, true) ∧
    deleteOp catBM ("!!!") = Except.error ("Missing id") := by
  constructor
  · have h := (c10_delete_slug catBM (" blue marble! ")).2 (by decide)
    exact h.trans (by rfl)
  · exact (c10_delete_slug catBM ("!!!")).1 (by decide)

/-- C1 (failing input): a global reorder with the duplicated sequence
X X against the catalogue holding ids X and Y passes the validation of
line 318 (the length equals the Set size and every member exists) and
stores two records with id X while dropping Y, so id-uniqueness of the
designs array is not preserved by the reorder operation for every
client-supplied order sequence. -/
theorem c1_dup_reorder_eval :
    reorderOp catXY none (some ["X", "X"]) =
      Except.ok [some { dX with position := some 2 }, some { dX with position := some 2 }] := by
  rfl

/-- C2 (failing input): the duplicated sequence A A against the catalogue
holding ids A and B is not a permutation of the current id set, yet the
reorder succeeds (no 400) and mutates the store, storing the record A
twice with position 2 and dropping B. -/
theorem c2_dup_accept_eval :
    reorderOp catAB none (some ["A", "A"]) =
      Except.ok [some { dA with position := some 2 }, some { dA with position := some 2 }] := by
  rfl

/-- C7 (counterexample): the code treats a missing position as the finite
sentinel 10^12, not +infinity.  In cat7 the record X carries position
10^12 and createdAt 5, the record Y has no position and createdAt 3;
GET /api/designs returns Y before X, although the claim says the record
with the missing position sorts last. -/
theorem c7_sentinel_cex :
    (apiGetDesigns cat7).designs = [d7Y, d7X] ∧
    d7Y.position = none ∧ d7X.position = some 1000000000000 := by
  exact ⟨rfl, rfl, rfl⟩

/-- C7 (amended): GET /api/designs returns the same document with the
designs stably sorted ascending by position where a missing position is
the sentinel 10^12 (so it sorts after every smaller stored position but
not after larger ones), ties broken by ascending createdAt. -/
theorem c7_get_designs_sorted (cat : Catalogue) :
    List.Sorted designLE (apiGetDesigns cat).designs ∧
    (apiGetDesigns cat).designs.Perm cat.designs ∧
    (apiGetDesigns cat).brandLogo = cat.brandLogo ∧
    (apiGetDesigns cat).sizeIcon = cat.sizeIcon := by
  refine ⟨?_, ?_, rfl, rfl⟩
  · exact List.sorted_insertionSort designLE cat.designs
  · exact List.perm_insertionSort designLE cat.designs

/-- C6: general characterization of the variant loop: the produced names
are exactly the accepted extensions numbered consecutively from the
starting counter (a disallowed file is skipped without incrementing the
counter); with only variant files present the request can never fail;
and the spec's instance: three valid files and one invalid file for
TILE1 yield exactly R2, R3, R4 with no gap. -/
theorem c6_variant_counter :
    (∀ (id : String) (c : Nat) (files : List String),
      processVariants id c files =
        variantNamesSpec id c (files.filterMap (fun n => safeExt n imageExts))) ∧
    (∀ (id : String) (files : List String),
      exceptOk (defaultFiles id { variants := files }) = true) ∧
    processVariants ("TILE1") 2 ["a.jpg", "d.gif", "b.png", "c.webp"] =
      ["TILE1_R2.jpg", "TILE1_R3.png", "TILE1_R4.webp"] := by
  refine ⟨?_, ?_, ?_⟩
  · intro id c files
    induction files generalizing c with
    | nil => rfl
    | cons n rest ih =>
      cases h : safeExt n imageExts with
      | none =>
        simp only [processVariants, h, List.filterMap_cons]
        exact ih c
      | some e =>
        simp only [processVariants, h, List.filterMap_cons, variantNamesSpec]
        rw [ih (c + 1)]
  · intro id files
    rfl
  · rfl

/-! ### Upsert lemmas (for C4) -/

theorem jsOr_none_right {α : Type} (a : Option α) : jsOr a none = a := by
  cases a <;> rfl

theorem jsOr_comm_of_disjoint {α : Type} {a b : Option α} (h : a = none ∨ b = none) :
    jsOr a b = jsOr b a := by
  rcases h with h | h <;> rw [h] <;> rw [jsOr_none_right] <;> rfl

theorem upsertList_no_match {p : Design → Bool} {f : Design → Design} {newRec : Design} :
    ∀ {ds : List Design}, (∀ d ∈ ds, p d = false) →
      upsertList p f newRec ds = ds ++ [newRec] := by
  intro ds
  induction ds with
  | nil => intro _; rfl
  | cons d t ih =>
    intro h
    rw [upsertList, h d (List.mem_cons_self d t)]
    simp only [Bool.false_eq_true, if_false]
    rw [ih (fun x hx => h x (List.mem_cons_of_mem d hx)), List.cons_append]

theorem upsertList_match_last {p : Design → Bool} {f : Design → Design} {newRec x : Design} :
    ∀ {ds : List Design}, (∀ d ∈ ds, p d = false) → p x = true →
      upsertList p f newRec (ds ++ [x]) = ds ++ [f x] := by
  intro ds
  induction ds with
  | nil =>
    intro _ hx
    rw [List.nil_append, upsertList, hx]
    simp
  | cons d t ih =>
    intro h hx
    rw [List.cons_append, upsertList, h d (List.mem_cons_self d t)]
    simp only [Bool.false_eq_true, if_false]
    rw [ih (fun y hy => h y (List.mem_cons_of_mem d hy)) hx, List.cons_append]

theorem find?_append_last {p : Design → Bool} {x : Design} :
    ∀ {ds : List Design}, (∀ d ∈ ds, p d = false) → p x = true →
      (ds ++ [x]).find? p = some x := by
  intro ds
  induction ds with
  | nil =>
    intro _ hx
    rw [List.nil_append]
    exact List.find?_cons_of_pos _ hx
  | cons d t ih =>
    intro h hx
    rw [List.cons_append, List.find?_cons_of_neg _ (by simp [h d (List.mem_cons_self d t)])]
    exact ih (fun y hy => h y (List.mem_cons_of_mem d hy)) hx

theorem lookupTd_nil (k : String) : lookupTd [] k = none := rfl

theorem jsOr_none_left {α : Type} (b : Option α) : jsOr none b = b := rfl

theorem lookupTd_cons_of_pos {pr : String × TVal} {t : List (String × TVal)} {k : String}
    (h : (pr.1 == k) = true) : lookupTd (pr :: t) k = some pr.2 := by
  simp [lookupTd, h]

theorem lookupTd_cons_of_neg {pr : String × TVal} {t : List (String × TVal)} {k : String}
    (h : (pr.1 == k) = false) : lookupTd (pr :: t) k = lookupTd t k := by
  simp [lookupTd, h]

theorem lookupTd_setKey_same :
    ∀ (td : List (String × TVal)) (k : String) (v : TVal),
      lookupTd (setKey td k v) k = some v := by
  intro td k v
  induction td with
  | nil =>
    rw [setKey, lookupTd_cons_of_pos (by simp)]
  | cons pr t ih =>
    by_cases h : (pr.1 == k) = true
    · rw [setKey, if_pos h, lookupTd_cons_of_pos (by simp)]
    · rw [setKey, if_neg (by simpa using h), lookupTd_cons_of_neg (by simpa using h)]
      exact ih

theorem lookupTd_setKey_other {k k2 : String} (hne : (k2 == k) = false) :
    ∀ (td : List (String × TVal)) (v : TVal),
      lookupTd (setKey td k2 v) k = lookupTd td k := by
  intro td v
  induction td with
  | nil =>
    rw [setKey, lookupTd_cons_of_neg hne]
  | cons pr t ih =>
    by_cases h : (pr.1 == k2) = true
    · have hpr : pr.1 = k2 := by simpa using h
      rw [setKey, if_pos h, lookupTd_cons_of_neg hne, lookupTd_cons_of_neg (by rw [hpr]; exact hne)]
    · rw [setKey, if_neg (by simpa using h)]
      by_cases hk : (pr.1 == k) = true
      · rw [lookupTd_cons_of_pos hk, lookupTd_cons_of_pos hk]
      · have hk' : (pr.1 == k) = false := by simpa using hk
        rw [lookupTd_cons_of_neg hk', lookupTd_cons_of_neg hk']
        exact ih

theorem objAssign_cons (a : List (String × TVal)) (p : String × TVal)
    (b : List (String × TVal)) :
    objAssign a (p :: b) = objAssign (setKey a p.1 p.2) b := rfl

theorem lookupTd_objAssign :
    ∀ {b : List (String × TVal)}, (tdKeys b).Nodup →
      ∀ (a : List (String × TVal)) (k : String),
        lookupTd (objAssign a b) k = jsOr (lookupTd b k) (lookupTd a k) := by
  intro b
  induction b with
  | nil =>
    intro _ a k
    rfl
  | cons pr b2 ih =>
    intro hnd a k
    have hnd' : pr.1 ∉ tdKeys b2 ∧ (tdKeys b2).Nodup := by
      rw [tdKeys] at hnd
      rw [List.map_cons] at hnd
      exact ⟨(List.nodup_cons.mp hnd).1, (List.nodup_cons.mp hnd).2⟩
    rw [objAssign_cons, ih hnd'.2]
    by_cases hk : (pr.1 == k) = true
    · have hkk : pr.1 = k := by simpa using hk
      subst hkk
      have hb2 : lookupTd b2 pr.1 = none := by
        rw [lookupTd, List.find?_eq_none.mpr, Option.map_none']
        intro x hx hpx
        exact hnd'.1 (by
          rw [tdKeys]
          exact List.mem_map.mpr ⟨x, hx, by simpa using hpx⟩)
      rw [hb2, lookupTd_setKey_same, lookupTd_cons_of_pos (by simp)]
      rfl
    · have hk' : (pr.1 == k) = false := by simpa using hk
      rw [lookupTd_setKey_other hk' a pr.2, lookupTd_cons_of_neg hk']

/-- C4: upserting the same id twice with disjoint field sets yields the
stored record holding the union of the fields of both requests, with
createdAt from the first call only and updatedAt from the second call;
and in the non-default-theme branch themeData is merged key by key (the
new keys overwrite, the other old keys are retained). -/
theorem c4_upsert_merge (cat : Catalogue) (id l1 fi1 : String) (fa1 t1 : Int)
    (rels1 : DefaultRels) (st1 : Option String) (l2 fi2 : String) (fa2 t2 : Int)
    (rels2 : DefaultRels) (st2 : Option String) (theme : String)
    (td1 td2 : List (String × TVal))
    (habs : ∀ d ∈ cat.designs, (d.id == id) = false)
    (hth : theme ≠ "default")
    (hm : rels1.mainRel = none ∨ rels2.mainRel = none)
    (hv : rels1.variantRels = [] ∨ rels2.variantRels = [])
    (hvid : rels1.videoRel = none ∨ rels2.videoRel = none)
    (hpv : rels1.previewRel = none ∨ rels2.previewRel = none)
    (hstd : st1 = none ∨ st2 = none)
    (hkeys1 : (tdKeys td1).Nodup) (hkeys2 : (tdKeys td2).Nodup) :
    ((upsertDefault (upsertDefault cat id l1 fi1 fa1 t1 rels1 st1)
        id l2 fi2 fa2 t2 rels2 st2).designs.find? (fun d => d.id == id) =
      some { id := id, theme := "default", label := l2, finish := fi2, faces := fa2,
             main := jsOr rels1.mainRel rels2.mainRel,
             variants := if (rels1.variantRels ++ rels2.variantRels).isEmpty then none
                         else some (rels1.variantRels ++ rels2.variantRels),
             video := jsOr rels1.videoRel rels2.videoRel,
             preview := jsOr rels1.previewRel rels2.previewRel,
             sizeText := jsOr st1 st2,
             createdAt := some t1, updatedAt := some t2 }) ∧
    (∃ r, (flexUpsert (flexUpsert cat id theme l1 fi1 fa1 t1 td1)
        id theme l2 fi2 fa2 t2 td2).designs.find? (fun d => d.id == id) = some r ∧
      r.createdAt = some t1 ∧ r.updatedAt = some t2 ∧ r.theme = theme ∧ r.label = l2 ∧
      ∀ k, lookupTd (r.themeData.getD []) k = jsOr (lookupTd td2 k) (lookupTd td1 k)) := by
  constructor
  · show (upsertList (fun d => d.id == id)
        (mergeDefault id l2 fi2 fa2 t2 rels2 st2) (newDefault id l2 fi2 fa2 t2 rels2 st2)
        (upsertList (fun d => d.id == id)
          (mergeDefault id l1 fi1 fa1 t1 rels1 st1) (newDefault id l1 fi1 fa1 t1 rels1 st1)
          cat.designs)).find? (fun d => d.id == id) = _
    rw [upsertList_no_match habs,
      upsertList_match_last habs (by simp [newDefault]),
      find?_append_last habs (by simp [mergeDefault])]
    rcases hm with hm | hm <;> rcases hv with hv | hv <;> rcases hvid with hvid | hvid <;>
      rcases hpv with hpv | hpv <;> rcases hstd with hstd | hstd <;>
      simp [mergeDefault, newDefault, jsOr_none_right, jsOr_none_left, hm, hv, hvid, hpv, hstd]
  · refine ⟨mergeFlex id theme l2 fi2 fa2 t2 td2 (newFlex id theme l1 fi1 fa1 t1 td1),
      ?_, rfl, rfl, rfl, rfl, ?_⟩
    · show (upsertList (fun d => d.id == id)
          (mergeFlex id theme l2 fi2 fa2 t2 td2) (newFlex id theme l2 fi2 fa2 t2 td2)
          (upsertList (fun d => d.id == id)
            (mergeFlex id theme l1 fi1 fa1 t1 td1) (newFlex id theme l1 fi1 fa1 t1 td1)
            cat.designs)).find? (fun d => d.id == id) = _
      rw [upsertList_no_match habs,
        upsertList_match_last habs (by simp [newFlex]),
        find?_append_last habs (by simp [mergeFlex])]
    · intro k
      show lookupTd (objAssign ((newFlex id theme l1 fi1 fa1 t1 td1).themeData.getD []) td2) k = _
      show lookupTd (objAssign (objAssign [] td1) td2) k = _
      rw [lookupTd_objAssign hkeys2, lookupTd_objAssign hkeys1]
      have : lookupTd [] k = none := rfl
      rw [this, jsOr_none_right]

/-- C4 witness: with a fresh id T, a first default upload carrying only a
main file at time 100 and a second carrying only a video and a size text
at time 200 merge into one record holding all three fields, createdAt
100, updatedAt 200. -/
theorem c4_upsert_merge_witness :
    (upsertDefault (upsertDefault { designs := [] } "T" "L1" "F1" 1 100
        { mainRel := some ("PM") } none)
      "T" "L2" "F2" 2 200 { videoRel := some ("PV") } (some ("SZ"))).designs.find?
        (fun d => d.id == "T") =
      some { id := "T", theme := "default", label := "L2", finish := "F2", faces := 2,
             main := some ("PM"), video := some ("PV"), sizeText := some ("SZ"),
             createdAt := some 100, updatedAt := some 200 } := by
  have h := (c4_upsert_merge { designs := [] } "T" "L1" "F1" 1 100
    { mainRel := some ("PM") } none "L2" "F2" 2 200 { videoRel := some ("PV") }
    (some ("SZ")) "neo" [("a", TVal.s ("1"))] [("b", TVal.s ("2"))]
    (by intro d hd; simp at hd) (by decide) (Or.inr rfl) (Or.inl rfl) (Or.inl rfl)
    (Or.inl rfl) (Or.inl rfl) (by decide) (by decide)).1
  exact h.trans (by rfl)

/-! ### Flexible-theme themeData lemmas (for C8) -/

theorem tdKeys_cons (p : String × TVal) (t : List (String × TVal)) :
    tdKeys (p :: t) = p.1 :: tdKeys t := rfl

theorem flexThemeData_cons (id : String) (g : String × List UpFile)
    (gs : List (String × List UpFile)) (td : List (String × TVal)) :
    flexThemeData id (g :: gs) td = flexThemeData id gs (flexFileStep id td g.1 g.2) := rfl

theorem tdKeys_setKey (td : List (String × TVal)) (k : String) (v : TVal) :
    tdKeys (setKey td k v) = if k ∈ tdKeys td then tdKeys td else tdKeys td ++ [k] := by
  induction td with
  | nil => simp [setKey, tdKeys]
  | cons pr t ih =>
    by_cases h : (pr.1 == k) = true
    · have hpk : pr.1 = k := by simpa using h
      rw [setKey, if_pos h, tdKeys_cons, tdKeys_cons, hpk,
        if_pos (List.mem_cons_self k (tdKeys t))]
    · have hpk : pr.1 ≠ k := by simpa using h
      rw [setKey, if_neg (by simpa using h), tdKeys_cons, tdKeys_cons, ih]
      by_cases hm : k ∈ tdKeys t
      · rw [if_pos hm, if_pos (List.mem_cons_of_mem pr.1 hm)]
      · rw [if_neg hm, if_neg (by
          intro hc
          rcases List.mem_cons.mp hc with hc | hc
          · exact hpk hc.symm
          · exact hm hc), List.cons_append]

theorem tdKeys_nodup_setKey {td : List (String × TVal)} {k : String} {v : TVal}
    (h : (tdKeys td).Nodup) : (tdKeys (setKey td k v)).Nodup := by
  rw [tdKeys_setKey]
  by_cases hm : k ∈ tdKeys td
  · rw [if_pos hm]; exact h
  · rw [if_neg hm, ← List.concat_eq_append]
    exact List.Nodup.concat hm h

theorem tdKeys_nodup_flexFileStep {id field : String} {arr : List UpFile}
    {td : List (String × TVal)} (h : (tdKeys td).Nodup) :
    (tdKeys (flexFileStep id td field arr)).Nodup := by
  unfold flexFileStep
  by_cases hres : reservedFields.contains field = true
  · rw [if_pos hres]; exact h
  · rw [if_neg hres]
    by_cases hemp : arr.isEmpty = true
    · rw [if_pos hemp]; exact h
    · rw [if_neg hemp]
      exact tdKeys_nodup_setKey h

theorem tdKeys_nodup_flexThemeData (id : String) :
    ∀ (grouped : List (String × List UpFile)) (td : List (String × TVal)),
      (tdKeys td).Nodup → (tdKeys (flexThemeData id grouped td)).Nodup := by
  intro grouped
  induction grouped with
  | nil => intro td h; exact h
  | cons g gs ih =>
    intro td h
    rw [flexThemeData_cons]
    exact ih _ (tdKeys_nodup_flexFileStep h)

theorem lookupTd_flexFileStep_skip {id k field : String} {arr : List UpFile}
    {td : List (String × TVal)}
    (h : reservedFields.contains field = true ∨ arr = [] ∨ (cleanField field == k) = false) :
    lookupTd (flexFileStep id td field arr) k = lookupTd td k := by
  unfold flexFileStep
  by_cases hres : reservedFields.contains field = true
  · rw [if_pos hres]
  · rw [if_neg hres]
    by_cases hemp : arr.isEmpty = true
    · rw [if_pos hemp]
    · rw [if_neg hemp]
      rcases h with h | h | h
      · exact absurd h hres
      · exact absurd (by rw [h]; rfl) hemp
      · exact lookupTd_setKey_other h td (mkTVal id arr)

theorem lookupTd_flexThemeData_skip {id k : String} :
    ∀ (grouped : List (String × List UpFile)) (td : List (String × TVal)),
      (∀ p ∈ grouped,
        reservedFields.contains p.1 = true ∨ p.2 = [] ∨ (cleanField p.1 == k) = false) →
      lookupTd (flexThemeData id grouped td) k = lookupTd td k := by
  intro grouped
  induction grouped with
  | nil => intro td _; rfl
  | cons g gs ih =>
    intro td h
    rw [flexThemeData_cons, ih _ (fun p hp => h p (List.mem_cons_of_mem g hp))]
    exact lookupTd_flexFileStep_skip (h g (List.mem_cons_self g gs))

theorem lookupTd_flexThemeData_hit (id : String) {field : String} {arr : List UpFile}
    (hres : reservedFields.contains field = false) (hne : arr ≠ []) :
    ∀ (grouped : List (String × List UpFile)) (td0 : List (String × TVal)),
      (field, arr) ∈ grouped →
      (grouped.map (fun p => p.1)).Nodup →
      (∀ p ∈ grouped, p.1 ≠ field →
        (reservedFields.contains p.1 = true ∨ p.2 = [] ∨
          (cleanField p.1 == cleanField field) = false)) →
      lookupTd (flexThemeData id grouped td0) (cleanField field) = some (mkTVal id arr) := by
  intro grouped
  induction grouped with
  | nil => intro td0 hmem; intro _ _; simp at hmem
  | cons g gs ih =>
    intro td0 hmem hnodup huniq
    have hnodup2 : (g.1 :: gs.map (fun p => p.1)).Nodup := by
      rw [List.map_cons] at hnodup
      exact hnodup
    rw [flexThemeData_cons]
    rcases List.mem_cons.mp hmem with hg | hg
    · have hstep : flexFileStep id td0 g.1 g.2 =
          setKey td0 (cleanField field) (mkTVal id arr) := by
        rw [← hg]
        unfold flexFileStep
        rw [if_neg (by rw [hres]; simp), if_neg (by
          intro hemp
          exact hne (List.isEmpty_iff.mp hemp))]
      rw [hstep]
      have hfield : field ∉ gs.map (fun p => p.1) := by
        have h1 := (List.nodup_cons.mp hnodup2).1
        rw [← hg] at h1
        simpa using h1
      rw [lookupTd_flexThemeData_skip gs _ (fun p hp => ?_)]
      · exact lookupTd_setKey_same td0 (cleanField field) (mkTVal id arr)
      · have hpf : p.1 ≠ field := by
          intro hEq
          exact hfield (hEq ▸ List.mem_map.mpr ⟨p, hp, rfl⟩)
        exact huniq p (List.mem_cons_of_mem g hp) hpf
    · exact ih (flexFileStep id td0 g.1 g.2) hg
        (List.nodup_cons.mp hnodup2).2
        (fun p hp hpf => huniq p (List.mem_cons_of_mem g hp) hpf)

/-- C8 (counterexample): in a non-default theme an uploaded file field
named main contributes no themeData entry at all (the loop of line 250
skips the reserved default-theme field names, against the claim that
every field tag contributes whatever its name); moreover when two field
names clean to the same key, the later field silently overwrites the
earlier field's entry. -/
theorem c8_reserved_cex :
    flexThemeData ("X") [("main", [fMain])] [] = [] ∧
    lookupTd (flexThemeData ("X") [("badge", [fB1]), ("files[badge]", [fB2])] []) ("badge") =
      some (TVal.s ("../AXOLI/DATA/ASSETS/X/files[badge]_3.png")) := by
  exact ⟨rfl, rfl⟩

/-- C8 (amended): in a non-default-theme upload, every uploaded file
field whose tag is not one of the reserved default-theme names (main,
variants, variants[], video, preview), and whose cleaned tag is not also
produced by another contributing field, contributes the entry keyed by
the tag stripped of the files[ ] / [] wrapping, valued by the asset path
(or array of paths) under the id's asset directory with filename
tag_uploadTimestamp.ext; the entry survives the merge with any previous
themeData. -/
theorem c8_theme_data (id : String) (grouped : List (String × List UpFile))
    (td0 : List (String × TVal)) (field : String) (arr : List UpFile)
    (hmem : (field, arr) ∈ grouped)
    (hres : reservedFields.contains field = false)
    (hne : arr ≠ [])
    (hnodup : (grouped.map (fun p => p.1)).Nodup)
    (htd0 : (tdKeys td0).Nodup)
    (huniq : ∀ p ∈ grouped, p.1 ≠ field →
      (reservedFields.contains p.1 = true ∨ p.2 = [] ∨
        (cleanField p.1 == cleanField field) = false)) :
    lookupTd (flexThemeData id grouped td0) (cleanField field) = some (mkTVal id arr) ∧
    ∀ oldTd, lookupTd (objAssign oldTd (flexThemeData id grouped td0)) (cleanField field) =
      some (mkTVal id arr) := by
  have h1 := lookupTd_flexThemeData_hit id hres hne grouped td0 hmem hnodup huniq
  refine ⟨h1, fun oldTd => ?_⟩
  rw [lookupTd_objAssign (tdKeys_nodup_flexThemeData id grouped td0 htd0), h1]
  rfl

/-- C8 witness: the field files[swatch][] with two files maps to the
themeData key swatch holding the two asset paths. -/
theorem c8_theme_data_witness :
    lookupTd (flexThemeData ("X") [("files[swatch][]", [fB1, fB2]), ("badge", [fMain])] [])
      (cleanField ("files[swatch][]")) = some (mkTVal ("X") [fB1, fB2]) := by
  exact (c8_theme_data "X" [("files[swatch][]", [fB1, fB2]), ("badge", [fMain])] []
    "files[swatch][]" [fB1, fB2] (by simp) (by decide) (by decide) (by decide) (by decide)
    (by decide)).1

/-! ### Reorder lemmas (for C3) -/

theorem walkIds_eq_specWalk (ord : List String) :
    ∀ (ids rem : List String),
      ids.countP (fun d => ord.contains d) = rem.length →
      walkIds (fun s => ord.contains s) ids rem = (specWalk ord ids rem).map some := by
  intro ids
  induction ids with
  | nil => intro rem _; rfl
  | cons d ds ih =>
    intro rem hcount
    rw [List.countP_cons] at hcount
    by_cases hd : ord.contains d = true
    · simp only [hd, if_true] at hcount
      rcases rem with _ | ⟨r, rs⟩
      · simp at hcount
      · have hcount' : ds.countP (fun x => ord.contains x) = rs.length := by
          simp only [List.length_cons] at hcount
          omega
        simp only [walkIds, specWalk, hd, if_true, List.head?_cons, List.drop_one,
          List.tail_cons, List.map_cons]
        rw [ih rs hcount']
    · have hd' : ord.contains d = false := by simpa using hd
      simp only [hd', Bool.false_eq_true, if_false, Nat.add_zero] at hcount
      simp only [walkIds, specWalk, hd', Bool.false_eq_true, if_false, List.map_cons]
      rw [ih rem hcount]

theorem specWalk_props (ord : List String) :
    ∀ (ids rem : List String), ids.Nodup → rem.Nodup →
      (∀ x ∈ rem, ord.contains x = true) →
      ids.countP (fun d => ord.contains d) = rem.length →
      (specWalk ord ids rem).Nodup ∧
      (∀ x ∈ specWalk ord ids rem, (x ∈ ids ∧ ord.contains x = false) ∨ x ∈ rem) ∧
      (specWalk ord ids rem).length = ids.length := by
  intro ids
  induction ids with
  | nil =>
    intro rem _ _ _ _
    refine ⟨List.nodup_nil, ?_, rfl⟩
    intro x hx
    simp [specWalk] at hx
  | cons d ds ih =>
    intro rem hids hrem hremord hcount
    have hids' := List.nodup_cons.mp hids
    rw [List.countP_cons] at hcount
    by_cases hd : ord.contains d = true
    · simp only [hd, if_true] at hcount
      rcases rem with _ | ⟨r, rs⟩
      · simp at hcount
      · have hrem' := List.nodup_cons.mp hrem
        have hcount' : ds.countP (fun x => ord.contains x) = rs.length := by
          simp only [List.length_cons] at hcount
          omega
        obtain ⟨ihnd, ihmem, ihlen⟩ := ih rs hids'.2 hrem'.2
          (fun x hx => hremord x (List.mem_cons_of_mem r hx)) hcount'
        have hspec : specWalk ord (d :: ds) (r :: rs) = r :: specWalk ord ds rs := by
          rw [specWalk, if_pos hd]
        rw [hspec]
        refine ⟨?_, ?_, by rw [List.length_cons, List.length_cons, ihlen]⟩
        · rw [List.nodup_cons]
          refine ⟨?_, ihnd⟩
          intro hrmem
          rcases ihmem r hrmem with ⟨_, hc⟩ | hc
          · rw [hremord r (List.mem_cons_self r rs)] at hc
            simp at hc
          · exact hrem'.1 hc
        · intro x hx
          rcases List.mem_cons.mp hx with hx | hx
          · exact Or.inr (hx ▸ List.mem_cons_self r rs)
          · rcases ihmem x hx with ⟨hxin, hc⟩ | hc
            · exact Or.inl ⟨List.mem_cons_of_mem d hxin, hc⟩
            · exact Or.inr (List.mem_cons_of_mem r hc)
    · have hd' : ord.contains d = false := by simpa using hd
      simp only [hd', Bool.false_eq_true, if_false, Nat.add_zero] at hcount
      obtain ⟨ihnd, ihmem, ihlen⟩ := ih rem hids'.2 hrem hremord hcount
      have hspec : specWalk ord (d :: ds) rem = d :: specWalk ord ds rem := by
        rw [specWalk.eq_def]
        simp only [hd', Bool.false_eq_true, if_false]
      rw [hspec]
      refine ⟨?_, ?_, by rw [List.length_cons, List.length_cons, ihlen]⟩
      · rw [List.nodup_cons]
        refine ⟨?_, ihnd⟩
        intro hdm
        rcases ihmem d hdm with ⟨hdin, _⟩ | hc
        · exact hids'.1 hdin
        · rw [hremord d hc] at hd'
          simp at hd'
      · intro x hx
        rcases List.mem_cons.mp hx with hx | hx
        · exact Or.inl ⟨hx ▸ List.mem_cons_self d ds, hx ▸ hd'⟩
        · rcases ihmem x hx with ⟨hxin, hc⟩ | hc
          · exact Or.inl ⟨List.mem_cons_of_mem d hxin, hc⟩
          · exact Or.inr hc

theorem countP_contains_eq_length {ids ord : List String} (hids : ids.Nodup)
    (hord : ord.Nodup) (hsub : ∀ x ∈ ord, x ∈ ids) :
    ids.countP (fun d => ord.contains d) = ord.length := by
  rw [List.countP_eq_length_filter]
  have hfil : (ids.filter (fun d => ord.contains d)).Nodup := hids.filter _
  have hiff : ∀ x, x ∈ ids.filter (fun d => ord.contains d) ↔ x ∈ ord := by
    intro x
    rw [List.mem_filter]
    constructor
    · intro hx
      exact List.mem_of_elem_eq_true hx.2
    · intro hx
      exact ⟨hsub x hx, List.elem_eq_true_of_mem hx⟩
  have h1 : (ids.filter (fun d => ord.contains d)).toFinset = ord.toFinset := by
    apply Finset.ext
    intro x
    rw [List.mem_toFinset, List.mem_toFinset]
    exact hiff x
  have h2 := List.toFinset_card_of_nodup hfil
  have h3 := List.toFinset_card_of_nodup hord
  rw [h1] at h2
  omega

theorem lastIdx?_not_mem {x : String} :
    ∀ {w : List String}, x ∉ w → lastIdx? (w.map some) x = none := by
  intro w
  induction w with
  | nil => intro _; rfl
  | cons a t ih =>
    intro h
    have hax : a ≠ x := fun hEq => h (hEq ▸ List.mem_cons_self a t)
    simp only [List.map_cons, lastIdx?, ih (fun hm => h (List.mem_cons_of_mem a hm))]
    simp [hax]

theorem lastIdx?_map_some_nodup :
    ∀ (w : List String), w.Nodup → ∀ (i : Nat) (h : i < w.length),
      lastIdx? (w.map some) (w.get ⟨i, h⟩) = some i := by
  intro w
  induction w with
  | nil => intro _ i h; simp at h
  | cons a t ih =>
    intro hnd i h
    cases i with
    | zero =>
      have hna : a ∉ t := (List.nodup_cons.mp hnd).1
      show lastIdx? (some a :: t.map some) a = some 0
      simp only [lastIdx?, lastIdx?_not_mem hna]
      simp
    | succ j =>
      have hj : j < t.length := by simpa using h
      show lastIdx? (some a :: t.map some) (t.get ⟨j, hj⟩) = some (j + 1)
      simp only [lastIdx?, ih (List.nodup_cons.mp hnd).2 j hj]

theorem byIdGet_isSome_of_mem {ds : List Design} {x : String}
    (h : x ∈ ds.map (fun d => d.id)) : (byIdGet ds x).isSome = true := by
  rw [byIdGet, List.find?_isSome]
  rcases List.mem_map.mp h with ⟨d, hd, hid⟩
  exact ⟨d, List.mem_reverse.mpr hd, by simp [hid]⟩

theorem applyOrder_map_some {ds : List Design} {w : List String} (hw : w.Nodup) :
    applyOrder ds (w.map some) = w.enum.map (fun p =>
      (byIdGet ds p.2).map (fun d => { d with position := some (Int.ofNat p.1 + 1) })) := by
  apply List.ext_getElem
  · simp [applyOrder, List.enum]
  · intro i h1 h2
    have hi : i < w.length := by simpa [applyOrder] using h1
    have hlast : lastIdx? (w.map some) w[i] = some i := by
      have := lastIdx?_map_some_nodup w hw i hi
      rw [List.get_eq_getElem] at this
      exact this
    simp only [applyOrder, List.getElem_map, List.enum, List.getElem_enumFrom, Nat.zero_add]
    rw [hlast]
    cases hb : byIdGet ds w[i] with
    | none => rfl
    | some d => rfl

/-- C3 (counterexample): the claim fails for two whole families of
subset sequences.  The empty sequence (a subset of the current ids) is
rejected with a 400 instead of performing the empty substitution; and
for the duplicate subset sequence B B D over the position-sorted
catalogue A B C D, the stored result is A B C B whose element at index 1
carries position 4, not index-plus-one 2 (the shared record B receives
the later assignment), while D is dropped entirely. -/
theorem c3_subsequence_cex :
    reorderOp catW (some ("t")) (some []) =
      Except.error ("Provide \x27order\x27 as a non-empty array of IDs.") ∧
    reorderOp catW (some ("t")) (some ["B", "B", "D"]) =
      Except.ok [some { dW1 with position := some 1 }, some { dW2 with position := some 4 },
        some { dW3 with position := some 3 }, some { dW2 with position := some 4 }] := by
  exact ⟨rfl, rfl⟩

/-- C3 (amended): for a position-sorted catalogue with unique design ids
and a non-empty duplicate-free supplied id sequence whose members are a
subset of the current ids, theme-scope reorder is the subsequence
substitution: walking the current order, each design whose id is in the
supplied set is replaced by the next unconsumed id of the supplied
sequence while the other designs keep their slots, every slot resolves
to a stored record, and position index-plus-one is assigned along the
final sequence. -/
theorem c3_theme_subsequence (cat : Catalogue) (t : String) (ord : List String)
    (hsort : List.Sorted designLE cat.designs)
    (hids : (cat.designs.map (fun d => d.id)).Nodup)
    (hord : ord.Nodup) (hne : ord ≠ [])
    (hsub : ∀ x ∈ ord, x ∈ cat.designs.map (fun d => d.id))
    (ht1 : t ≠ "") (ht2 : t ≠ "all") :
    reorderOp cat (some t) (some ord) =
      Except.ok ((specWalk ord (cat.designs.map (fun d => d.id)) ord).enum.map (fun p =>
        (byIdGet cat.designs p.2).map
          (fun d => { d with position := some (Int.ofNat p.1 + 1) }))) ∧
    ∀ x ∈ specWalk ord (cat.designs.map (fun d => d.id)) ord,
      (byIdGet cat.designs x).isSome = true := by
  have hcount : (cat.designs.map (fun d => d.id)).countP (fun d => ord.contains d) =
      ord.length := countP_contains_eq_length hids hord hsub
  obtain ⟨hwnd, hwmem, _⟩ := specWalk_props ord (cat.designs.map (fun d => d.id)) ord
    hids hord (fun x hx => List.elem_eq_true_of_mem hx) hcount
  constructor
  · have hsorted : sortDesigns cat.designs = cat.designs := by
      rw [sortDesigns]
      exact List.Sorted.insertionSort_eq hsort
    have hscope : (!(t == "") && !(t == "all")) = true := by simp [ht1, ht2]
    simp only [reorderOp]
    rw [if_neg (by simp [hne]), if_pos hscope, hsorted,
      walkIds_eq_specWalk ord _ ord hcount, applyOrder_map_some hwnd]
  · intro x hx
    rcases hwmem x hx with ⟨hxin, _⟩ | hxin
    · exact byIdGet_isSome_of_mem hxin
    · exact byIdGet_isSome_of_mem (hsub x hxin)

/-- C3 witness: over the position-sorted catalogue A B C D, the supplied
theme-scope order D B produces A D C B with positions 1 to 4. -/
theorem c3_theme_subsequence_witness :
    reorderOp catW (some ("t")) (some ["D", "B"]) =
      Except.ok [some { dW1 with position := some 1 }, some { dW4 with position := some 2 },
        some { dW3 with position := some 3 }, some { dW2 with position := some 4 }] := by
  have h := (c3_theme_subsequence catW "t" ["D", "B"] (by decide) (by decide) (by decide)
    (by decide) (by decide) (by decide) (by decide)).1
  exact h.trans (by rfl)

/-- C5 witness: the normalizer evaluated at a concrete input: it is
idempotent there, its characters are in the class, and it computes the
expected slug. -/
theorem c5_slug_normalizer_witness :
    slug (slug (" blue marble! ")) = slug (" blue marble! ") ∧
    goodChar 'B' = true ∧
    slug (" blue marble! ") = "BLUE_MARBLE" := by
  refine ⟨(c5_slug_normalizer (" blue marble! ")).1, ?_, by decide⟩
  exact (c5_slug_normalizer (" blue marble! ")).2.1 'B' (by decide)
